import Mathlib

/-!
# Verification of the ATP player dashboard data pipeline

Shallow embedding of the chart data-transformation core of the
`TNRiley/ATP-player-dashboard` repository:

* the surface win-rate aggregation inlined in
  `src/components/insights/PlayerSurfaceProfile.tsx`;
* the match filtering and round grouping inlined in the
  `CompetitivenessBeeswarm` component;
* the beeswarm layout algorithm (its module `src/utils/d3/layout.ts` is not
  among the provided sources, so it is modelled from the design spec).

Numbers are embedded as rationals, JavaScript `Map`s as association lists
with JS semantics (last `set` wins for `get`, keys kept in first-insertion
order, keys unique).
-/

namespace ATPDash

/-- Playing surface, from the repository's `Surface` enumeration. -/
inductive Surface : Type
  | Hard
  | Clay
  | Grass
  | Carpet
deriving DecidableEq, Repr

/-- Tournament round, from the repository's `Round` enumeration
`1R, 2R, 3R, 4R, QF, SF, F`. -/
inductive Round : Type
  | R1
  | R2
  | R3
  | R4
  | QF
  | SF
  | F
deriving DecidableEq, Repr

/-- A match record (`Match` in `src/types`): identity, tournament reference,
winner and loser ids, round and date. -/
structure Match : Type where
  id : String
  tournamentId : String
  winnerId : String
  loserId : String
  round : Round
  date : String
deriving DecidableEq, Repr

/-- A tournament record: identity, surface and competition tier.  The
`series` enumeration's inhabitants are not needed, so it is kept abstract as
a string. -/
structure Tournament : Type where
  id : String
  surface : Surface
  series : String
deriving DecidableEq, Repr

/-- A derived per-match metric (`Derived` in `src/types`), keyed by
`matchId`; `rankDiff` may be `undefined` (here `none`). -/
structure Derived : Type where
  matchId : String
  rankDiff : Option ℚ
deriving DecidableEq, Repr

/-- `get` on a JavaScript `Map` built from a list of entries keyed by
`key`: when several entries share a key the last one wins, as in
`new Map(entries)`. -/
def mapGet {α : Type} (key : α → String) (entries : List α) (k : String) :
    Option α :=
  entries.reverse.find? (fun e => decide (key e = k))

/-- `tournamentsMap.get`, for the map built by
`new Map(tournaments.map(t => [t.id, t]))`. -/
def tournamentGet (ts : List Tournament) (k : String) : Option Tournament :=
  mapGet Tournament.id ts k

/-- `derivedMap.get`, for the map built by
`new Map(derived.map(d => [d.matchId, d]))`. -/
def derivedGet (ds : List Derived) (k : String) : Option Derived :=
  mapGet Derived.matchId ds k

/-! ## Surface win-rate aggregation (`PlayerSurfaceProfile.tsx`) -/

/-- The player filter
`m.winnerId === playerId || m.loserId === playerId`. -/
def isPlayerMatch (playerId : String) (m : Match) : Bool :=
  decide (m.winnerId = playerId) || decide (m.loserId = playerId)

/-- The mutable `{ wins, total }` cell stored per surface. -/
structure SurfaceCount : Type where
  wins : Nat
  total : Nat
deriving DecidableEq, Repr

/-- `if (!surfaceStats.has(surface)) surfaceStats.set(surface, {wins:0,total:0})`:
the surface-keyed map, as an insertion-ordered association list. -/
def ensureSurface (acc : List (Surface × SurfaceCount)) (s : Surface) :
    List (Surface × SurfaceCount) :=
  if acc.any (fun e => decide (e.1 = s)) then acc else acc ++ [(s, ⟨0, 0⟩)]

/-- `stats.total++; if (match.winnerId === playerId) stats.wins++` applied to
the (unique) entry for surface `s`. -/
def bumpSurface (playerId : String) (m : Match) (s : Surface)
    (acc : List (Surface × SurfaceCount)) : List (Surface × SurfaceCount) :=
  (ensureSurface acc s).map (fun e =>
    if e.1 = s then
      (e.1, ⟨if m.winnerId = playerId then e.2.wins + 1 else e.2.wins,
             e.2.total + 1⟩)
    else e)

/-- One iteration of `playerMatches.forEach`: resolve the tournament, drop
the match silently when the lookup fails, otherwise update its surface
cell. -/
def surfaceStep (ts : List Tournament) (playerId : String)
    (acc : List (Surface × SurfaceCount)) (m : Match) :
    List (Surface × SurfaceCount) :=
  match tournamentGet ts m.tournamentId with
  | none => acc
  | some t => bumpSurface playerId m t.surface acc

/-- The `surfaceStats` map after scanning all of the player's matches. -/
def surfaceFold (ms : List Match) (ts : List Tournament)
    (playerId : String) : List (Surface × SurfaceCount) :=
  (ms.filter (isPlayerMatch playerId)).foldl (surfaceStep ts playerId) []

/-- A computed `SurfaceStat` entry
`{ surface, winRate, wins, total }`. -/
structure SurfaceStat : Type where
  surface : Surface
  winRate : ℚ
  wins : Nat
  total : Nat
deriving DecidableEq, Repr

/-- `computeSurfaceProfile`: the per-player aggregation of
`PlayerSurfaceProfile.tsx` —
`Array.from(surfaceStats.entries()).map(([surface, stats]) => ({ surface,
winRate: stats.total > 0 ? stats.wins / stats.total : 0, wins, total }))`. -/
def computeSurfaceProfile (ms : List Match) (ts : List Tournament)
    (playerId : String) : List SurfaceStat :=
  (surfaceFold ms ts playerId).map (fun e =>
    ⟨e.1,
     if 0 < e.2.total then (e.2.wins : ℚ) / (e.2.total : ℚ) else 0,
     e.2.wins, e.2.total⟩)

/-! ## Match filtering and round grouping (`CompetitivenessBeeswarm`) -/

/-- The surface filter: when a surface is selected, keep exactly the matches
whose resolved tournament has that surface (`tournament?.surface === surface`
is `false` when the lookup fails). -/
def surfaceFilter (ts : List Tournament) (surface : Option Surface)
    (ms : List Match) : List Match :=
  match surface with
  | none => ms
  | some s => ms.filter (fun m =>
      match tournamentGet ts m.tournamentId with
      | some t => decide (t.surface = s)
      | none => false)

/-- The series filter, same shape as the surface filter. -/
def seriesFilter (ts : List Tournament) (series : Option String)
    (ms : List Match) : List Match :=
  match series with
  | none => ms
  | some s => ms.filter (fun m =>
      match tournamentGet ts m.tournamentId with
      | some t => decide (t.series = s)
      | none => false)

/-- The round whitelist: `if (rounds.length > 0)` filter by
`rounds.includes(m.round)`. -/
def roundsFilter (rounds : List Round) (ms : List Match) : List Match :=
  if 0 < rounds.length then ms.filter (fun m => decide (m.round ∈ rounds))
  else ms

/-- `filteredMatches`: the three filters applied in source order
(surface, then series, then round whitelist). -/
def filteredMatches (ms : List Match) (ts : List Tournament)
    (surface : Option Surface) (series : Option String)
    (rounds : List Round) : List Match :=
  roundsFilter rounds (seriesFilter ts series (surfaceFilter ts surface ms))

/-- `roundGroups.set` followed by `push`: ensure a (possibly empty) group for
round `r` exists, then append the pair to every entry keyed `r` (the key is
unique by construction). -/
def pushPair (acc : List (Round × List (Match × Derived))) (r : Round)
    (p : Match × Derived) : List (Round × List (Match × Derived)) :=
  let acc1 :=
    if acc.any (fun e => decide (e.1 = r)) then acc else acc ++ [(r, [])]
  acc1.map (fun e => if e.1 = r then (e.1, e.2 ++ [p]) else e)

/-- One iteration of `filteredMatches.forEach`:
`const d = derivedMap.get(match.id); if (d && d.rankDiff !== undefined) …`. -/
def groupStep (ds : List Derived)
    (acc : List (Round × List (Match × Derived))) (m : Match) :
    List (Round × List (Match × Derived)) :=
  match derivedGet ds m.id with
  | some d => if d.rankDiff.isSome then pushPair acc m.round (m, d) else acc
  | none => acc

/-- `groupByRound`: the `roundGroups` map of `CompetitivenessBeeswarm`,
built from the filtered matches. -/
def groupByRound (ms : List Match) (ds : List Derived)
    (ts : List Tournament) (surface : Option Surface)
    (series : Option String) (rounds : List Round) :
    List (Round × List (Match × Derived)) :=
  (filteredMatches ms ts surface series rounds).foldl (groupStep ds) []

/-! ## Beeswarm layout

Modelled from the spec: the module `src/utils/d3/layout.ts`, which exports
`beeswarmLayout`, is not among the provided sources (only its caller is), so
the definitions below follow the spec's algorithm description word for word:
map values through the position function, sort by `y` ascending with a
stable sort, then sweep once, giving each point the smallest-magnitude
offset `0, +δ, −δ, +2δ, −2δ, …` (`δ = 2 × pointRadius`) that keeps its
center at least `2 × pointRadius` away from every already-placed point whose
`y` lies within `2 × pointRadius` of its own. -/

/-- An input point for the layout. -/
structure BPoint (T : Type) : Type where
  value : ℚ
  payload : T
deriving DecidableEq, Repr

/-- A placed point: `y = positionFn value`, `x_offset` the resolved
perpendicular jitter. -/
structure BOut (T : Type) : Type where
  value : ℚ
  payload : T
  y : ℚ
  x_offset : ℚ
deriving DecidableEq, Repr

/-- Modelled from the spec: the candidate offsets in preference order
`0, +δ, −δ, +2δ, −2δ, …`, as integer multiples of `δ`:
`candInt 0 = 0`, `candInt 1 = 1`, `candInt 2 = −1`, `candInt 3 = 2`, …. -/
def candInt (i : Nat) : ℤ :=
  if i % 2 = 1 then ((i + 1) / 2 : Nat) else -((i / 2 : Nat) : ℤ)

/-- Modelled from the spec: the `i`-th candidate offset. -/
def candidate (δ : ℚ) (i : Nat) : ℚ := (candInt i : ℚ) * δ

/-- Modelled from the spec: membership in the active collision window —
an already-placed point whose `y` falls within `2 × pointRadius` of the
current point's `y`. -/
def inWindow {T : Type} (r y : ℚ) (q : BOut T) : Bool :=
  decide (|q.y - y| < 2 * r)

/-- Modelled from the spec: the candidate offset `c` keeps the current
center (at height `y`) at least `2 × pointRadius` away from the placed
point `q`, stated on squared Euclidean distance. -/
def farEnough {T : Type} (r y c : ℚ) (q : BOut T) : Bool :=
  decide ((2 * r) * (2 * r) ≤ (y - q.y) * (y - q.y) +
    (c - q.x_offset) * (c - q.x_offset))

/-- First index at or after `i` satisfying `p`, trying at most `fuel`
indices (and returning the next index if all tried ones fail). -/
def searchIdx (p : Nat → Bool) : Nat → Nat → Nat
  | 0, i => i
  | fuel + 1, i => if p i then i else searchIdx p fuel (i + 1)

/-- Modelled from the spec: the smallest-magnitude candidate offset clearing
every point of the active window.  Trying one more candidate than there are
window members always suffices (each window member can block only the
candidate equal to its own offset), so the bounded search never runs out of
fuel. -/
def chooseOffset {T : Type} (r : ℚ) (placed : List (BOut T)) (y : ℚ) : ℚ :=
  let w := placed.filter (inWindow r y)
  candidate (2 * r)
    (searchIdx (fun i => w.all (farEnough r y (candidate (2 * r) i)))
      (w.length + 1) 0)

/-- Modelled from the spec: place one point after the already-placed ones,
resolving its offset against the active window. -/
def placeStep {T : Type} (r : ℚ) (acc : List (BOut T)) (p : BOut T) :
    List (BOut T) :=
  acc ++ [{ p with x_offset := chooseOffset r acc p.y }]

/-- Modelled from the spec: `beeswarmLayout` of `src/utils/d3/layout.ts` —
map every value through the position function, sort by `y` ascending
(stably: `orderedInsert` with `≤` keeps ties in input order), then sweep
placing each point greedily. -/
def beeswarmLayout {T : Type} (points : List (BPoint T)) (posFn : ℚ → ℚ)
    (r : ℚ) : List (BOut T) :=
  let mapped : List (BOut T) :=
    points.map (fun p => ⟨p.value, p.payload, posFn p.value, 0⟩)
  let sorted := mapped.insertionSort (fun a b => a.y ≤ b.y)
  sorted.foldl (placeStep r) []

/-! ## Derived notions used to state and prove the claims -/

/-- The per-entry well-formedness of a surface cell: wins never exceed the
total, and the cell was bumped at least once before being emitted. -/
def goodCount (e : Surface × SurfaceCount) : Prop :=
  e.2.wins ≤ e.2.total ∧ 1 ≤ e.2.total

/-- The key sequence of the surface map, in insertion order. -/
def surfaceKeys (acc : List (Surface × SurfaceCount)) : List Surface :=
  acc.map Prod.fst

/-- The sum of the `total` cells of the surface map. -/
def totalSum (acc : List (Surface × SurfaceCount)) : Nat :=
  (acc.map (fun e => e.2.total)).sum

/-- One scan step of the spec's sentence "output order is the order surfaces
were first encountered while scanning matches": record the match's resolved
surface if it is new. -/
def encStep (ts : List Tournament) (ks : List Surface) (m : Match) :
    List Surface :=
  match tournamentGet ts m.tournamentId with
  | none => ks
  | some t => if t.surface ∈ ks then ks else ks ++ [t.surface]

/-- Formalisation of the spec's words, independent of the aggregation code:
the order in which surfaces are first encountered while scanning the
player's matches (matches with unresolved tournaments encounter nothing). -/
def specFirstEncounterOrder (ms : List Match) (ts : List Tournament)
    (playerId : String) : List Surface :=
  (ms.filter (isPlayerMatch playerId)).foldl (encStep ts) []

/-- The per-group well-formedness of a round group, relative to the derived
lookup and the list `src` the grouped matches were drawn from. -/
def groupOK (ds : List Derived) (src : List Match)
    (p : Round × List (Match × Derived)) : Prop :=
  p.2 ≠ [] ∧ ∀ q ∈ p.2,
    derivedGet ds q.1.id = some q.2 ∧ q.2.rankDiff.isSome = true ∧
    p.1 = q.1.round ∧ q.1 ∈ src

/-- Two placed points do not overlap as circles of radius `r`: if they are
vertically closer than `2r` they are horizontally at least `2r` apart. -/
def noOverlap {T : Type} (r : ℚ) (a b : BOut T) : Prop :=
  |a.y - b.y| < 2 * r → 2 * r ≤ |a.x_offset - b.x_offset|

/-- `x` is an integer multiple of the offset step `δ`. -/
def onGrid (δ x : ℚ) : Prop := ∃ k : ℤ, x = k * δ

/-! ## Surface aggregation lemmas -/

theorem any_key_iff (acc : List (Surface × SurfaceCount)) (s : Surface) :
    (acc.any (fun e => decide (e.1 = s)) = true) ↔ s ∈ surfaceKeys acc := by
  rw [List.any_eq_true]
  unfold surfaceKeys
  rw [List.mem_map]
  constructor
  · rintro ⟨e, he, hd⟩
    exact ⟨e, he, of_decide_eq_true hd⟩
  · rintro ⟨e, he, hd⟩
    exact ⟨e, he, decide_eq_true hd⟩

theorem surfaceKeys_bump (playerId : String) (m : Match) (s : Surface)
    (acc : List (Surface × SurfaceCount)) :
    surfaceKeys (bumpSurface playerId m s acc) =
      if s ∈ surfaceKeys acc then surfaceKeys acc
      else surfaceKeys acc ++ [s] := by
  unfold bumpSurface ensureSurface
  by_cases h : s ∈ surfaceKeys acc
  · rw [if_pos ((any_key_iff acc s).mpr h), if_pos h]
    unfold surfaceKeys
    rw [List.map_map]
    apply List.map_congr_left
    intro e _
    by_cases he : e.1 = s <;> simp [he]
  · rw [if_neg (fun hc => h ((any_key_iff acc s).mp hc)), if_neg h]
    unfold surfaceKeys
    rw [List.map_map, List.map_append]
    congr 1
    · apply List.map_congr_left
      intro e _
      by_cases he : e.1 = s <;> simp [he]
    · simp

theorem goodCount_bump (playerId : String) (m : Match) (s : Surface)
    (acc : List (Surface × SurfaceCount)) (h : ∀ e ∈ acc, goodCount e) :
    ∀ e ∈ bumpSurface playerId m s acc, goodCount e := by
  intro e he
  unfold bumpSurface at he
  obtain ⟨a, ha, rfl⟩ := List.mem_map.mp he
  have hmem : a ∈ acc ∨ a = (s, ⟨0, 0⟩) := by
    unfold ensureSurface at ha
    by_cases hc : acc.any (fun e => decide (e.1 = s)) = true
    · rw [if_pos hc] at ha; exact Or.inl ha
    · rw [if_neg hc] at ha
      rcases List.mem_append.mp ha with h1 | h1
      · exact Or.inl h1
      · exact Or.inr (List.mem_singleton.mp h1)
  by_cases hkey : a.1 = s
  · rcases hmem with h1 | h1
    · have := h a h1
      unfold goodCount at this ⊢
      simp only [if_pos hkey]
      by_cases hw : m.winnerId = playerId <;> simp [hw] <;> omega
    · subst h1
      unfold goodCount
      simp only [if_pos hkey]
      by_cases hw : m.winnerId = playerId <;> simp [hw]
  · rcases hmem with h1 | h1
    · simpa [if_neg hkey] using h a h1
    · exact absurd (by rw [h1]) hkey

theorem totalSum_map_update (playerId : String) (m : Match) (s : Surface) :
    ∀ acc : List (Surface × SurfaceCount),
      totalSum (acc.map (fun e =>
        if e.1 = s then
          (e.1, ⟨if m.winnerId = playerId then e.2.wins + 1 else e.2.wins,
                 e.2.total + 1⟩)
        else e)) =
      totalSum acc + acc.countP (fun e => decide (e.1 = s)) := by
  intro acc
  induction acc with
  | nil => rfl
  | cons a l ih =>
    simp only [totalSum, List.map_cons, List.sum_cons, List.countP_cons] at ih ⊢
    by_cases hkey : a.1 = s
    · simp only [if_pos hkey, decide_eq_true hkey, ih]
      simp
      omega
    · have hd : decide (a.1 = s) = false := decide_eq_false hkey
      simp only [if_neg hkey, hd, ih]
      simp only [Bool.false_eq_true, ite_false]
      omega

theorem countP_key_eq_count (acc : List (Surface × SurfaceCount))
    (s : Surface) :
    acc.countP (fun e => decide (e.1 = s)) = (surfaceKeys acc).count s := by
  unfold surfaceKeys
  rw [List.count, List.countP_map]
  congr 1

theorem totalSum_bump (playerId : String) (m : Match) (s : Surface)
    (acc : List (Surface × SurfaceCount))
    (hnodup : (surfaceKeys acc).Nodup) :
    totalSum (bumpSurface playerId m s acc) = totalSum acc + 1 := by
  unfold bumpSurface ensureSurface
  by_cases h : s ∈ surfaceKeys acc
  · rw [if_pos ((any_key_iff acc s).mpr h), totalSum_map_update,
      countP_key_eq_count]
    rw [List.count_eq_one_of_mem hnodup h]
  · rw [if_neg (fun hc => h ((any_key_iff acc s).mp hc)),
      totalSum_map_update, countP_key_eq_count]
    have h1 : surfaceKeys (acc ++ [(s, ⟨0, 0⟩)]) = surfaceKeys acc ++ [s] := by
      simp [surfaceKeys]
    rw [h1, List.count_append]
    rw [List.count_eq_zero_of_not_mem h]
    have h2 : totalSum (acc ++ [(s, ⟨0, 0⟩)]) = totalSum acc := by
      simp [totalSum]
    rw [h2]
    simp

theorem surfaceKeys_bump_nodup (playerId : String) (m : Match) (s : Surface)
    (acc : List (Surface × SurfaceCount))
    (h : (surfaceKeys acc).Nodup) :
    (surfaceKeys (bumpSurface playerId m s acc)).Nodup := by
  rw [surfaceKeys_bump]
  by_cases hs : s ∈ surfaceKeys acc
  · rwa [if_pos hs]
  · rw [if_neg hs]
    refine List.Nodup.append h (List.nodup_singleton s) ?_
    intro a ha hb
    rw [List.mem_singleton] at hb
    subst hb
    exact hs ha

theorem surfaceFold_inv (ts : List Tournament) (pid : String) :
    ∀ (l : List Match) (acc : List (Surface × SurfaceCount)),
      (surfaceKeys acc).Nodup → (∀ e ∈ acc, goodCount e) →
      (surfaceKeys (l.foldl (surfaceStep ts pid) acc)).Nodup
      ∧ (∀ e ∈ l.foldl (surfaceStep ts pid) acc, goodCount e)
      ∧ totalSum (l.foldl (surfaceStep ts pid) acc)
          = totalSum acc
            + (l.filter
                (fun m => (tournamentGet ts m.tournamentId).isSome)).length
      ∧ surfaceKeys (l.foldl (surfaceStep ts pid) acc)
          = l.foldl (encStep ts) (surfaceKeys acc) := by
  intro l
  induction l with
  | nil =>
    intro acc h1 h2
    exact ⟨h1, h2, by simp, rfl⟩
  | cons m l ih =>
    intro acc h1 h2
    simp only [List.foldl_cons, List.filter_cons]
    cases hlk : tournamentGet ts m.tournamentId with
    | none =>
      have hstep : surfaceStep ts pid acc m = acc := by
        unfold surfaceStep
        rw [hlk]
      have henc : encStep ts (surfaceKeys acc) m = surfaceKeys acc := by
        unfold encStep
        rw [hlk]
      rw [hstep, henc]
      simp only [Option.isSome_none, Bool.false_eq_true, if_false]
      exact ih acc h1 h2
    | some t =>
      have hstep : surfaceStep ts pid acc m = bumpSurface pid m t.surface acc := by
        unfold surfaceStep
        rw [hlk]
      rw [hstep]
      simp only [Option.isSome_some, if_true]
      obtain ⟨i1, i2, i3, i4⟩ :=
        ih (bumpSurface pid m t.surface acc)
          (surfaceKeys_bump_nodup pid m t.surface acc h1)
          (goodCount_bump pid m t.surface acc h2)
      refine ⟨i1, i2, ?_, ?_⟩
      · rw [i3, totalSum_bump pid m t.surface acc h1]
        simp only [if_true, List.length_cons]
        omega
      · rw [i4]
        congr 1
        rw [surfaceKeys_bump]
        unfold encStep
        rw [hlk]

theorem surfaceFold_goodCount (ms : List Match) (ts : List Tournament)
    (pid : String) :
    ∀ e ∈ surfaceFold ms ts pid, goodCount e :=
  (surfaceFold_inv ts pid (ms.filter (isPlayerMatch pid)) []
    (by simp [surfaceKeys]) (by simp)).2.1

/-- C3: the sum of the `total` fields over all SurfaceStat entries returned
by `computeSurfaceProfile` equals the number of matches in which the player
appears as winner or loser and whose tournament id resolves in the lookup;
matches with an unresolved tournament contribute to no group. -/
theorem computeSurfaceProfile_total_sum (ms : List Match)
    (ts : List Tournament) (pid : String) :
    ((computeSurfaceProfile ms ts pid).map SurfaceStat.total).sum
      = (ms.filter (fun m =>
          isPlayerMatch pid m
            && (tournamentGet ts m.tournamentId).isSome)).length := by
  have h1 : ((computeSurfaceProfile ms ts pid).map SurfaceStat.total).sum
      = totalSum (surfaceFold ms ts pid) := by
    unfold computeSurfaceProfile totalSum
    rw [List.map_map]
    rfl
  have h2 := (surfaceFold_inv ts pid (ms.filter (isPlayerMatch pid)) []
    (by simp [surfaceKeys]) (by simp)).2.2.1
  unfold surfaceFold at h1
  rw [h1, h2, List.filter_filter]
  have h3 : ms.filter
        (fun a => (tournamentGet ts a.tournamentId).isSome
          && isPlayerMatch pid a)
      = ms.filter (fun m =>
          isPlayerMatch pid m && (tournamentGet ts m.tournamentId).isSome) :=
    List.filter_congr (fun m _ => Bool.and_comm _ _)
  rw [h3]
  simp [totalSum]

/-- C5: every SurfaceStat entry has `0 ≤ winRate ≤ 1`, `winRate` equals
`wins / total` whenever `total > 0`, and equals `0` whenever `total = 0`. -/
theorem surfaceStat_winRate_bounds (ms : List Match) (ts : List Tournament)
    (pid : String) :
    ∀ st ∈ computeSurfaceProfile ms ts pid,
      0 ≤ st.winRate ∧ st.winRate ≤ 1
      ∧ (0 < st.total → st.winRate = (st.wins : ℚ) / (st.total : ℚ))
      ∧ (st.total = 0 → st.winRate = 0) := by
  intro st hst
  unfold computeSurfaceProfile at hst
  obtain ⟨e, he, rfl⟩ := List.mem_map.mp hst
  obtain ⟨hwt, ht1⟩ := surfaceFold_goodCount ms ts pid e he
  have hpos : 0 < e.2.total := ht1
  refine ⟨?_, ?_, fun _ => if_pos hpos,
    fun h0 => absurd (show e.2.total = 0 from h0) (by omega)⟩
  · show (0:ℚ) ≤ if 0 < e.2.total then (e.2.wins : ℚ) / (e.2.total : ℚ) else 0
    rw [if_pos hpos]
    positivity
  · show (if 0 < e.2.total then (e.2.wins : ℚ) / (e.2.total : ℚ) else 0) ≤ 1
    rw [if_pos hpos, div_le_one (by exact_mod_cast hpos)]
    exact_mod_cast hwt

/-- C6: `computeSurfaceProfile` returns an entry only for surfaces with at
least one contributing match (`total ≥ 1`), and the entries appear in the
order each surface was first encountered while scanning the match list (not
in the canonical surface order). -/
theorem computeSurfaceProfile_order (ms : List Match) (ts : List Tournament)
    (pid : String) :
    (computeSurfaceProfile ms ts pid).map SurfaceStat.surface
        = specFirstEncounterOrder ms ts pid
    ∧ ∀ st ∈ computeSurfaceProfile ms ts pid, 1 ≤ st.total := by
  constructor
  · have h1 : (computeSurfaceProfile ms ts pid).map SurfaceStat.surface
        = surfaceKeys (surfaceFold ms ts pid) := by
      unfold computeSurfaceProfile surfaceKeys
      rw [List.map_map]
      rfl
    have h2 := (surfaceFold_inv ts pid (ms.filter (isPlayerMatch pid)) []
      (by simp [surfaceKeys]) (by simp)).2.2.2
    unfold surfaceFold at h1
    rw [h1, h2]
    rfl
  · intro st hst
    unfold computeSurfaceProfile at hst
    obtain ⟨e, he, rfl⟩ := List.mem_map.mp hst
    exact (surfaceFold_goodCount ms ts pid e he).2

/-- C10: every SurfaceStat satisfies `wins ≤ total` and `total ≥ 1`, so the
`total > 0` guard in the winRate computation is always true and its
else-branch returning 0 is unreachable: `winRate = wins / total`
unconditionally. -/
theorem surfaceStat_counts_positive (ms : List Match) (ts : List Tournament)
    (pid : String) :
    ∀ st ∈ computeSurfaceProfile ms ts pid,
      st.wins ≤ st.total ∧ 1 ≤ st.total
      ∧ st.winRate = (st.wins : ℚ) / (st.total : ℚ) := by
  intro st hst
  unfold computeSurfaceProfile at hst
  obtain ⟨e, he, rfl⟩ := List.mem_map.mp hst
  obtain ⟨hwt, ht1⟩ := surfaceFold_goodCount ms ts pid e he
  exact ⟨hwt, ht1, if_pos (show 0 < e.2.total by omega)⟩

/-! ## Round grouping lemmas -/

theorem mapGet_some_key {α : Type} (key : α → String) (es : List α)
    (k : String) (a : α) (h : mapGet key es k = some a) : key a = k := by
  unfold mapGet at h
  have h2 := List.find?_some h
  exact of_decide_eq_true h2

theorem pushPair_ok (ds : List Derived) (src : List Match)
    (acc : List (Round × List (Match × Derived))) (m : Match) (d : Derived)
    (hacc : ∀ p ∈ acc, groupOK ds src p)
    (hd : derivedGet ds m.id = some d) (hrd : d.rankDiff.isSome = true)
    (hm : m ∈ src) :
    ∀ p ∈ pushPair acc m.round (m, d), groupOK ds src p := by
  intro p hp
  unfold pushPair at hp
  obtain ⟨e, he, rfl⟩ := List.mem_map.mp hp
  have hmem : e ∈ acc ∨ e = (m.round, []) := by
    by_cases hc : acc.any (fun x => decide (x.1 = m.round)) = true
    · rw [if_pos hc] at he
      exact Or.inl he
    · rw [if_neg hc] at he
      rcases List.mem_append.mp he with h1 | h1
      · exact Or.inl h1
      · exact Or.inr (List.mem_singleton.mp h1)
  by_cases hkey : e.1 = m.round
  · rw [if_pos hkey]
    rcases hmem with h1 | h1
    · obtain ⟨hne, hq⟩ := hacc e h1
      refine ⟨by simp, ?_⟩
      intro q hq2
      rcases List.mem_append.mp hq2 with h2 | h2
      · exact hq q h2
      · rw [List.mem_singleton.mp h2]
        exact ⟨hd, hrd, hkey, hm⟩
    · subst h1
      refine ⟨by simp, ?_⟩
      intro q hq2
      simp only [List.nil_append, List.mem_singleton] at hq2
      rw [hq2]
      exact ⟨hd, hrd, hkey, hm⟩
  · rw [if_neg hkey]
    rcases hmem with h1 | h1
    · exact hacc e h1
    · exact absurd (by rw [h1]) hkey

theorem groupFold_ok (ds : List Derived) (src : List Match) :
    ∀ (l : List Match) (acc : List (Round × List (Match × Derived))),
      (∀ m ∈ l, m ∈ src) → (∀ p ∈ acc, groupOK ds src p) →
      ∀ p ∈ l.foldl (groupStep ds) acc, groupOK ds src p := by
  intro l
  induction l with
  | nil => exact fun acc _ hacc => hacc
  | cons m l ih =>
    intro acc hl hacc
    simp only [List.foldl_cons]
    have hml : ∀ x ∈ l, x ∈ src := fun x hx => hl x (List.mem_cons_of_mem m hx)
    cases hda : derivedGet ds m.id with
    | none =>
      have hstep : groupStep ds acc m = acc := by
        unfold groupStep
        rw [hda]
      rw [hstep]
      exact ih acc hml hacc
    | some d =>
      by_cases hrd : d.rankDiff.isSome = true
      · have hstep : groupStep ds acc m = pushPair acc m.round (m, d) := by
          unfold groupStep
          rw [hda]
          exact if_pos hrd
        rw [hstep]
        exact ih _ hml
          (pushPair_ok ds src acc m d hacc hda hrd (hl m (List.mem_cons_self m l)))
      · have hstep : groupStep ds acc m = acc := by
          unfold groupStep
          rw [hda]
          exact if_neg hrd
        rw [hstep]
        exact ih acc hml hacc

theorem groupByRound_ok (ms : List Match) (ds : List Derived)
    (ts : List Tournament) (surface : Option Surface)
    (series : Option String) (rounds : List Round) :
    ∀ p ∈ groupByRound ms ds ts surface series rounds,
      groupOK ds (filteredMatches ms ts surface series rounds) p :=
  groupFold_ok ds (filteredMatches ms ts surface series rounds)
    (filteredMatches ms ts surface series rounds) []
    (fun _ h => h) (by simp)

theorem roundsFilter_subset (rounds : List Round) (l : List Match)
    (m : Match) (h : m ∈ roundsFilter rounds l) : m ∈ l := by
  unfold roundsFilter at h
  by_cases hc : 0 < rounds.length
  · rw [if_pos hc] at h
    exact (List.mem_filter.mp h).1
  · rwa [if_neg hc] at h

theorem seriesFilter_subset (ts : List Tournament) (series : Option String)
    (l : List Match) (m : Match) (h : m ∈ seriesFilter ts series l) :
    m ∈ l := by
  unfold seriesFilter at h
  cases series with
  | none => exact h
  | some s => exact (List.mem_filter.mp h).1

theorem surfaceFilter_resolved (ts : List Tournament) (s : Surface)
    (l : List Match) (m : Match) (h : m ∈ surfaceFilter ts (some s) l) :
    (tournamentGet ts m.tournamentId).isSome = true := by
  unfold surfaceFilter at h
  have hp := (List.mem_filter.mp h).2
  cases hlk : tournamentGet ts m.tournamentId with
  | some t => rfl
  | none =>
    rw [hlk] at hp
    simp at hp

theorem seriesFilter_resolved (ts : List Tournament) (s : String)
    (l : List Match) (m : Match) (h : m ∈ seriesFilter ts (some s) l) :
    (tournamentGet ts m.tournamentId).isSome = true := by
  unfold seriesFilter at h
  have hp := (List.mem_filter.mp h).2
  cases hlk : tournamentGet ts m.tournamentId with
  | some t => rfl
  | none =>
    rw [hlk] at hp
    simp at hp

/-- C2 (counterexample): with no filter active, a match whose tournament id
resolves to nothing is still grouped by round — it is not dropped, so the
claim's "or no filter at all" case fails on the code. -/
theorem groupByRound_unresolved_contributes_without_filters :
    tournamentGet [] "t9" = none ∧
    groupByRound [⟨"m1", "t9", "p1", "p2", Round.F, "d"⟩]
        [⟨"m1", some 0⟩] [] none none []
      = [(Round.F,
          [(⟨"m1", "t9", "p1", "p2", Round.F, "d"⟩, ⟨"m1", some 0⟩)])] :=
  ⟨rfl, by decide⟩

/-- C2 (amended): whenever a surface or series filter is active, a match
whose tournament id is absent from the lookup contributes nothing to the
mapping returned by `groupByRound` (every grouped match has a resolvable
tournament); with only a round whitelist or no filter at all the tournament
lookup is never consulted, and no case raises an error. -/
theorem groupByRound_drops_unresolved (ms : List Match) (ds : List Derived)
    (ts : List Tournament) (surface : Option Surface)
    (series : Option String) (rounds : List Round)
    (hfilter : surface.isSome = true ∨ series.isSome = true) :
    ∀ p ∈ groupByRound ms ds ts surface series rounds, ∀ q ∈ p.2,
      (tournamentGet ts q.1.tournamentId).isSome = true := by
  intro p hp q hq
  have hsrc :=
    ((groupByRound_ok ms ds ts surface series rounds p hp).2 q hq).2.2.2
  unfold filteredMatches at hsrc
  have h1 := roundsFilter_subset rounds _ q.1 hsrc
  rcases hfilter with hs | hs
  · obtain ⟨s, rfl⟩ := Option.isSome_iff_exists.mp hs
    exact surfaceFilter_resolved ts s ms q.1
      (seriesFilter_subset ts series _ q.1 h1)
  · obtain ⟨s, rfl⟩ := Option.isSome_iff_exists.mp hs
    exact seriesFilter_resolved ts s _ q.1 h1

/-- C2 (witness): a concrete run with an active surface filter, showing the
amended theorem applied to a surviving grouped match. -/
theorem groupByRound_drops_unresolved_witness :
    (tournamentGet [⟨"t1", Surface.Hard, "A"⟩] "t1").isSome = true :=
  groupByRound_drops_unresolved
    [⟨"m1", "t1", "p1", "p2", Round.F, "d"⟩,
     ⟨"m2", "t9", "p1", "p2", Round.F, "d"⟩]
    [⟨"m1", some 1⟩, ⟨"m2", some 1⟩]
    [⟨"t1", Surface.Hard, "A"⟩] (some Surface.Hard) none []
    (Or.inl rfl)
    (Round.F,
      [(⟨"m1", "t1", "p1", "p2", Round.F, "d"⟩, ⟨"m1", some 1⟩)])
    (by decide)
    (⟨"m1", "t1", "p1", "p2", Round.F, "d"⟩, ⟨"m1", some 1⟩)
    (by decide)

/-- C7: a match is included in a round's group only if its derived metric
exists in the lookup with a defined `rankDiff`, and every round key present
in the mapping has a non-empty group. -/
theorem groupByRound_groups_wellformed (ms : List Match) (ds : List Derived)
    (ts : List Tournament) (surface : Option Surface)
    (series : Option String) (rounds : List Round) :
    ∀ p ∈ groupByRound ms ds ts surface series rounds,
      p.2 ≠ [] ∧ ∀ q ∈ p.2,
        ∃ d, derivedGet ds q.1.id = some d ∧ d.rankDiff.isSome = true := by
  intro p hp
  obtain ⟨hne, hq⟩ := groupByRound_ok ms ds ts surface series rounds p hp
  exact ⟨hne, fun q hq2 => ⟨q.2, (hq q hq2).1, (hq q hq2).2.1⟩⟩

/-- C7 (witness): concrete instantiation on a one-match input. -/
theorem groupByRound_groups_wellformed_witness :
    ∃ d, derivedGet [⟨"m1", some 1⟩] "m1" = some d
      ∧ d.rankDiff.isSome = true :=
  (groupByRound_groups_wellformed
      [⟨"m1", "t1", "p1", "p2", Round.F, "d"⟩] [⟨"m1", some 1⟩]
      [⟨"t1", Surface.Hard, "A"⟩] none none []
      (Round.F,
        [(⟨"m1", "t1", "p1", "p2", Round.F, "d"⟩, ⟨"m1", some 1⟩)])
      (by decide)).2
    (⟨"m1", "t1", "p1", "p2", Round.F, "d"⟩, ⟨"m1", some 1⟩)
    (by decide)

/-- C9: every `{match, derived}` pair stored in any round group is
self-consistent — the derived record is the lookup's record for the match
(`derived.matchId = match.id`), its `rankDiff` is defined, and the pair is
stored under the key equal to `match.round`. -/
theorem groupByRound_pairs_consistent (ms : List Match) (ds : List Derived)
    (ts : List Tournament) (surface : Option Surface)
    (series : Option String) (rounds : List Round) :
    ∀ p ∈ groupByRound ms ds ts surface series rounds, ∀ q ∈ p.2,
      q.2.matchId = q.1.id ∧ q.2.rankDiff.isSome = true
        ∧ p.1 = q.1.round := by
  intro p hp q hq
  obtain ⟨hd, hrd, hround, _⟩ :=
    (groupByRound_ok ms ds ts surface series rounds p hp).2 q hq
  exact ⟨mapGet_some_key Derived.matchId ds q.1.id q.2 hd, hrd, hround⟩

/-- C9 (witness): concrete instantiation on a one-match input. -/
theorem groupByRound_pairs_consistent_witness :
    (⟨"m1", some 1⟩ : Derived).matchId
        = (⟨"m1", "t1", "p1", "p2", Round.F, "d"⟩ : Match).id
      ∧ (⟨"m1", some 1⟩ : Derived).rankDiff.isSome = true
      ∧ Round.F = (⟨"m1", "t1", "p1", "p2", Round.F, "d"⟩ : Match).round :=
  groupByRound_pairs_consistent
    [⟨"m1", "t1", "p1", "p2", Round.F, "d"⟩] [⟨"m1", some 1⟩]
    [⟨"t1", Surface.Hard, "A"⟩] none none []
    (Round.F,
      [(⟨"m1", "t1", "p1", "p2", Round.F, "d"⟩, ⟨"m1", some 1⟩)])
    (by decide)
    (⟨"m1", "t1", "p1", "p2", Round.F, "d"⟩, ⟨"m1", some 1⟩)
    (by decide)

/-! ## Beeswarm layout lemmas -/

theorem candInt_injective : Function.Injective candInt := by
  intro i j h
  unfold candInt at h
  split_ifs at h <;> omega

theorem candidate_injective (δ : ℚ) (hδ : δ ≠ 0) :
    Function.Injective (candidate δ) := by
  intro i j h
  unfold candidate at h
  have h2 : (candInt i : ℚ) = (candInt j : ℚ) := mul_right_cancel₀ hδ h
  exact candInt_injective (by exact_mod_cast h2)

theorem searchIdx_spec (p : Nat → Bool) :
    ∀ (fuel i : Nat), (∃ j, i ≤ j ∧ j < i + fuel ∧ p j = true) →
      p (searchIdx p fuel i) = true := by
  intro fuel
  induction fuel with
  | zero =>
    rintro i ⟨j, h1, h2, _⟩
    omega
  | succ n ih =>
    rintro i ⟨j, h1, h2, h3⟩
    by_cases hp : p i = true
    · simp only [searchIdx]
      rw [if_pos hp]
      exact hp
    · simp only [searchIdx]
      rw [if_neg hp]
      apply ih
      refine ⟨j, ?_, by omega, h3⟩
      rcases Nat.eq_or_lt_of_le h1 with h4 | h4
      · subst h4
        exact absurd h3 hp
      · omega

theorem exists_free_candidate {T : Type} (r y : ℚ) (w : List (BOut T))
    (hgrid : ∀ q ∈ w, onGrid (2 * r) q.x_offset)
    (hwin : ∀ q ∈ w, |q.y - y| < 2 * r)
    (hr : 0 < r) :
    ∃ j, j ≤ w.length
      ∧ w.all (farEnough r y (candidate (2 * r) j)) = true := by
  by_contra hcon
  push_neg at hcon
  have hblock : ∀ j, j ≤ w.length →
      candidate (2 * r) j ∈ w.map (fun q => q.x_offset) := by
    intro j hj
    have h1 := hcon j hj
    have h1b : ¬ ∀ x ∈ w, farEnough r y (candidate (2 * r) j) x = true := by
      intro hall
      exact h1 (List.all_eq_true.mpr hall)
    push_neg at h1b
    obtain ⟨q, hq, h2x⟩ := h1b
    have h2 := Bool.eq_false_iff.mpr h2x
    unfold farEnough at h2
    rw [decide_eq_false_iff_not] at h2
    push_neg at h2
    obtain ⟨k, hk⟩ := hgrid q hq
    have hqy := hwin q hq
    have hcx : (candidate (2 * r) j - q.x_offset)
        * (candidate (2 * r) j - q.x_offset) < (2 * r) * (2 * r) := by
      nlinarith [mul_self_nonneg (y - q.y)]
    have hke : candInt j = k := by
      by_contra hne
      have h3 : (1:ℚ) ≤ |((candInt j - k : ℤ) : ℚ)| := by
        exact_mod_cast Int.one_le_abs (sub_ne_zero.mpr hne)
      have h4 : candidate (2 * r) j - q.x_offset
          = ((candInt j - k : ℤ) : ℚ) * (2 * r) := by
        rw [hk]
        unfold candidate
        push_cast
        ring
      have h5 : 2 * r ≤ |candidate (2 * r) j - q.x_offset| := by
        rw [h4, abs_mul, abs_of_pos (show (0:ℚ) < 2 * r by linarith)]
        nlinarith [h3]
      have h6 : (2 * r) * (2 * r)
          ≤ |candidate (2 * r) j - q.x_offset|
            * |candidate (2 * r) j - q.x_offset| :=
        mul_le_mul h5 h5 (by linarith) (abs_nonneg _)
      rw [abs_mul_abs_self] at h6
      linarith
    have heq : candidate (2 * r) j = q.x_offset := by
      rw [hk]
      unfold candidate
      rw [hke]
    rw [heq]
    exact List.mem_map.mpr ⟨q, hq, rfl⟩
  have hnodup : ((List.range (w.length + 1)).map (candidate (2 * r))).Nodup :=
    (List.nodup_range _).map (candidate_injective (2 * r) (by linarith))
  have hsub : ∀ x ∈ (List.range (w.length + 1)).map (candidate (2 * r)),
      x ∈ w.map (fun q => q.x_offset) := by
    intro x hx
    obtain ⟨j, hj, rfl⟩ := List.mem_map.mp hx
    exact hblock j (by have := List.mem_range.mp hj; omega)
  have h1 : ((List.range (w.length + 1)).map (candidate (2 * r))).length
      = w.length + 1 := by simp
  have h2 := List.toFinset_card_of_nodup hnodup
  have h3 : ((List.range (w.length + 1)).map (candidate (2 * r))).toFinset
      ⊆ (w.map (fun q => q.x_offset)).toFinset := by
    intro x hx
    rw [List.mem_toFinset] at hx ⊢
    exact hsub x hx
  have h4 := Finset.card_le_card h3
  have h5 : (w.map (fun q => q.x_offset)).toFinset.card ≤ w.length := by
    have := List.toFinset_card_le (w.map (fun q => q.x_offset))
    simpa using this
  omega

theorem chooseOffset_grid {T : Type} (r : ℚ) (placed : List (BOut T))
    (y : ℚ) : onGrid (2 * r) (chooseOffset r placed y) := by
  unfold chooseOffset candidate
  exact ⟨_, rfl⟩

theorem chooseOffset_clears {T : Type} (r : ℚ) (placed : List (BOut T))
    (y : ℚ) (hgrid : ∀ q ∈ placed, onGrid (2 * r) q.x_offset) :
    ∀ q ∈ placed, |q.y - y| < 2 * r →
      2 * r ≤ |q.x_offset - chooseOffset r placed y| := by
  intro q hq hnear
  have hr : 0 < r := by
    have := abs_nonneg (q.y - y)
    linarith
  have hqw : q ∈ placed.filter (inWindow r y) :=
    List.mem_filter.mpr ⟨hq, by unfold inWindow; exact decide_eq_true hnear⟩
  have hwgrid : ∀ x ∈ placed.filter (inWindow r y), onGrid (2 * r) x.x_offset :=
    fun x hx => hgrid x (List.mem_filter.mp hx).1
  have hwwin : ∀ x ∈ placed.filter (inWindow r y), |x.y - y| < 2 * r := by
    intro x hx
    have h2 := (List.mem_filter.mp hx).2
    unfold inWindow at h2
    exact of_decide_eq_true h2
  obtain ⟨j, hj, hpj⟩ :=
    exists_free_candidate r y (placed.filter (inWindow r y)) hwgrid hwwin hr
  have hpass : (placed.filter (inWindow r y)).all (farEnough r y
      (chooseOffset r placed y)) = true :=
    searchIdx_spec
      (fun i => (placed.filter (inWindow r y)).all
        (farEnough r y (candidate (2 * r) i)))
      ((placed.filter (inWindow r y)).length + 1) 0
      ⟨j, Nat.zero_le _, by omega, hpj⟩
  have hfar := List.all_eq_true.mp hpass q hqw
  unfold farEnough at hfar
  have hfar2 := of_decide_eq_true hfar
  obtain ⟨k, hk⟩ := hgrid q hq
  obtain ⟨k2, hk2⟩ := chooseOffset_grid r placed y
  have hkne : k ≠ k2 := by
    rintro rfl
    have hzero : chooseOffset r placed y - q.x_offset = 0 := by
      rw [hk, hk2]
      ring
    rw [hzero] at hfar2
    have h1 := abs_lt.mp hnear
    nlinarith [h1.1, h1.2]
  have h4 : q.x_offset - chooseOffset r placed y
      = ((k - k2 : ℤ) : ℚ) * (2 * r) := by
    rw [hk, hk2]
    push_cast
    ring
  have h5 : (1:ℚ) ≤ |((k - k2 : ℤ) : ℚ)| := by
    exact_mod_cast Int.one_le_abs (sub_ne_zero.mpr hkne)
  rw [h4, abs_mul, abs_of_pos (show (0:ℚ) < 2 * r by linarith)]
  nlinarith [h5]

theorem placeFold_inv {T : Type} (r : ℚ) :
    ∀ (l acc : List (BOut T)),
      (∀ q ∈ acc, onGrid (2 * r) q.x_offset) →
      acc.Pairwise (noOverlap r) →
      (∀ q ∈ l.foldl (placeStep r) acc, onGrid (2 * r) q.x_offset)
      ∧ (l.foldl (placeStep r) acc).Pairwise (noOverlap r) := by
  intro l
  induction l with
  | nil => exact fun acc h1 h2 => ⟨h1, h2⟩
  | cons p l ih =>
    intro acc h1 h2
    simp only [List.foldl_cons]
    apply ih
    · intro q hq
      unfold placeStep at hq
      rcases List.mem_append.mp hq with h3 | h3
      · exact h1 q h3
      · rw [List.mem_singleton.mp h3]
        exact chooseOffset_grid r acc p.y
    · unfold placeStep
      rw [List.pairwise_append]
      refine ⟨h2, by simp, ?_⟩
      intro a ha b hb
      have hb2 : b = { p with x_offset := chooseOffset r acc p.y } :=
        List.mem_singleton.mp hb
      subst hb2
      intro hnear
      exact chooseOffset_clears r acc p.y h1 a ha hnear

/-- C1: for every input sequence, position function and radius, the output
of `beeswarmLayout` contains no two overlapping circles of radius `r`: any
two output points vertically closer than `2r` are horizontally at least
`2r` apart. -/
theorem beeswarm_no_overlap {T : Type} (points : List (BPoint T))
    (posFn : ℚ → ℚ) (r : ℚ) :
    (beeswarmLayout points posFn r).Pairwise
      (fun a b => |a.y - b.y| < 2 * r →
        2 * r ≤ |a.x_offset - b.x_offset|) := by
  simp only [beeswarmLayout]
  exact (placeFold_inv r _ [] (by simp) List.Pairwise.nil).2

theorem placeFold_map {T β : Type} (r : ℚ) (f : BOut T → β)
    (hf : ∀ p c, f { p with x_offset := c } = f p) :
    ∀ (l acc : List (BOut T)),
      (l.foldl (placeStep r) acc).map f = acc.map f ++ l.map f := by
  intro l
  induction l with
  | nil =>
    intro acc
    simp
  | cons p l ih =>
    intro acc
    simp only [List.foldl_cons, List.map_cons]
    rw [ih]
    unfold placeStep
    simp [hf, List.append_assoc]

/-- C4: the output of `beeswarmLayout` has exactly one entry per input entry
(a bijection preserving `value` and `payload`), and every output entry
satisfies `y = positionFn value`. -/
theorem beeswarm_preserves_points {T : Type} (points : List (BPoint T))
    (posFn : ℚ → ℚ) (r : ℚ) :
    ((beeswarmLayout points posFn r).map (fun q => (q.value, q.payload))).Perm
        (points.map (fun p => (p.value, p.payload)))
    ∧ ∀ q ∈ beeswarmLayout points posFn r, q.y = posFn q.value := by
  have hbl : beeswarmLayout points posFn r
      = ((points.map
            (fun p => (⟨p.value, p.payload, posFn p.value, 0⟩ : BOut T))).insertionSort
          (fun a b => a.y ≤ b.y)).foldl (placeStep r) [] := rfl
  have hperm : ((points.map
        (fun p => (⟨p.value, p.payload, posFn p.value, 0⟩ : BOut T))).insertionSort
      (fun a b => a.y ≤ b.y)).Perm
      (points.map (fun p => (⟨p.value, p.payload, posFn p.value, 0⟩ : BOut T))) :=
    List.perm_insertionSort _ _
  constructor
  · rw [hbl, placeFold_map r (fun q => (q.value, q.payload)) (fun p c => rfl)]
    simp only [List.map_nil, List.nil_append]
    refine (hperm.map _).trans ?_
    rw [List.map_map]
    exact List.Perm.refl _
  · intro q hq
    have h1 : (q.value, q.y)
        ∈ (beeswarmLayout points posFn r).map (fun x => (x.value, x.y)) :=
      List.mem_map_of_mem _ hq
    rw [hbl, placeFold_map r (fun x => (x.value, x.y)) (fun p c => rfl)] at h1
    simp only [List.map_nil, List.nil_append] at h1
    have h2 := (hperm.map (fun x => (x.value, x.y))).mem_iff.mp h1
    rw [List.map_map] at h2
    obtain ⟨p, _, hpe⟩ := List.mem_map.mp h2
    have hpe2 : ((p.value : ℚ), posFn p.value) = (q.value, q.y) := hpe
    injection hpe2 with h3 h4
    rw [← h4, h3]

theorem searchIdx_eq_of_first (p : Nat → Bool) :
    ∀ (fuel i k : Nat), i ≤ k → k < i + fuel →
      (∀ j, i ≤ j → j < k → p j = false) → p k = true →
      searchIdx p fuel i = k := by
  intro fuel
  induction fuel with
  | zero =>
    intro i k h1 h2 _ _
    omega
  | succ n ih =>
    intro i k h1 h2 hfail hk
    rcases Nat.eq_or_lt_of_le h1 with he | hlt
    · subst he
      simp only [searchIdx]
      rw [if_pos hk]
    · have hpi : p i = false := hfail i (le_refl i) hlt
      simp only [searchIdx]
      rw [if_neg (by simp [hpi])]
      exact ih (i + 1) k hlt (by omega)
        (fun j hj1 hj2 => hfail j (by omega) hj2) hk

theorem insertionSort_equalY {T : Type} (y0 : ℚ) :
    ∀ l : List (BOut T), (∀ x ∈ l, x.y = y0) →
      l.insertionSort (fun a b => a.y ≤ b.y) = l := by
  intro l
  induction l with
  | nil =>
    intro _
    rfl
  | cons b l ih =>
    intro h
    have hb : ∀ c ∈ l, (fun a b : BOut T => a.y ≤ b.y) b c := by
      intro c hc
      show b.y ≤ c.y
      rw [h b (List.mem_cons_self b l), h c (List.mem_cons_of_mem b hc)]
    rw [List.insertionSort_cons (fun a b : BOut T => a.y ≤ b.y) hb,
      ih (fun x hx => h x (List.mem_cons_of_mem b hx))]

theorem equalY_fold {T : Type} (r y0 : ℚ) (hr : 0 < r) :
    ∀ (l acc : List (BOut T)),
      (∀ x ∈ l, x.y = y0) → (∀ x ∈ acc, x.y = y0) →
      acc.map (fun q => q.x_offset)
        = (List.range acc.length).map (candidate (2 * r)) →
      (l.foldl (placeStep r) acc).map (fun q => q.x_offset)
        = (List.range (acc.length + l.length)).map (candidate (2 * r)) := by
  intro l
  induction l with
  | nil =>
    intro acc _ _ hmap
    simpa using hmap
  | cons p l ih =>
    intro acc hl hacc hmap
    simp only [List.foldl_cons]
    have hpy : p.y = y0 := hl p (List.mem_cons_self p l)
    have hw : acc.filter (inWindow r y0) = acc := by
      rw [List.filter_eq_self]
      intro q hq
      unfold inWindow
      apply decide_eq_true
      rw [hacc q hq, sub_self, abs_zero]
      linarith
    have hc : chooseOffset r acc p.y = candidate (2 * r) acc.length := by
      rw [hpy]
      simp only [chooseOffset]
      rw [hw]
      congr 1
      apply searchIdx_eq_of_first
      · exact Nat.zero_le _
      · omega
      · intro j _ hjlt
        have hjmem : candidate (2 * r) j ∈ acc.map (fun q => q.x_offset) := by
          rw [hmap]
          exact List.mem_map.mpr ⟨j, List.mem_range.mpr hjlt, rfl⟩
        obtain ⟨q, hq, hqx⟩ := List.mem_map.mp hjmem
        apply Bool.eq_false_iff.mpr
        intro hall
        have hf := List.all_eq_true.mp hall q hq
        unfold farEnough at hf
        have hf2 := of_decide_eq_true hf
        rw [hacc q hq, hqx] at hf2
        nlinarith
      · apply List.all_eq_true.mpr
        intro q hq
        unfold farEnough
        apply decide_eq_true
        have hqmem : q.x_offset
            ∈ (List.range acc.length).map (candidate (2 * r)) := by
          rw [← hmap]
          exact List.mem_map.mpr ⟨q, hq, rfl⟩
        obtain ⟨k, hk, hkx⟩ := List.mem_map.mp hqmem
        have hkn : k ≠ acc.length := by
          have := List.mem_range.mp hk
          omega
        have hz : candInt acc.length - candInt k ≠ 0 :=
          sub_ne_zero.mpr (fun he => hkn (candInt_injective he).symm)
        have h1 : (1:ℚ) ≤ |((candInt acc.length - candInt k : ℤ) : ℚ)| := by
          exact_mod_cast Int.one_le_abs hz
        have hz2 : (1:ℚ) ≤ ((candInt acc.length - candInt k : ℤ) : ℚ)
            * ((candInt acc.length - candInt k : ℤ) : ℚ) := by
          nlinarith [abs_nonneg ((candInt acc.length - candInt k : ℤ) : ℚ),
            abs_mul_abs_self ((candInt acc.length - candInt k : ℤ) : ℚ)]
        have h2 : candidate (2 * r) acc.length - q.x_offset
            = ((candInt acc.length - candInt k : ℤ) : ℚ) * (2 * r) := by
          rw [← hkx]
          unfold candidate
          push_cast
          ring
        rw [hacc q hq, h2, sub_self]
        nlinarith [hz2]
    have hacc2 : ∀ x ∈ placeStep r acc p, x.y = y0 := by
      intro x hx
      unfold placeStep at hx
      rcases List.mem_append.mp hx with hx1 | hx1
      · exact hacc x hx1
      · rw [List.mem_singleton.mp hx1]
        exact hpy
    have hmap2 : (placeStep r acc p).map (fun q => q.x_offset)
        = (List.range (placeStep r acc p).length).map (candidate (2 * r)) := by
      unfold placeStep
      rw [List.map_append, hmap]
      have hlen : (acc ++ [{ p with x_offset := chooseOffset r acc p.y }]).length
          = acc.length + 1 := by simp
      rw [hlen, List.range_succ, List.map_append]
      simp [hc]
    have hres := ih (placeStep r acc p)
      (fun x hx => hl x (List.mem_cons_of_mem p hx)) hacc2 hmap2
    rw [hres]
    have hlen2 : (placeStep r acc p).length + l.length
        = acc.length + (p :: l).length := by
      simp [placeStep]
      omega
    rw [hlen2]

theorem beeswarm_equal_values {T : Type} (points : List (BPoint T))
    (posFn : ℚ → ℚ) (r v : ℚ) (hr : 0 < r)
    (hv : ∀ p ∈ points, p.value = v) :
    (beeswarmLayout points posFn r).map (fun q => q.x_offset)
      = (List.range points.length).map (candidate (2 * r)) := by
  have hy : ∀ x ∈ points.map
      (fun p => (⟨p.value, p.payload, posFn p.value, 0⟩ : BOut T)),
      x.y = posFn v := by
    intro x hx
    obtain ⟨p, hp, rfl⟩ := List.mem_map.mp hx
    show posFn p.value = posFn v
    rw [hv p hp]
  have hsort := insertionSort_equalY (posFn v)
    (points.map (fun p => (⟨p.value, p.payload, posFn p.value, 0⟩ : BOut T)))
    hy
  have hbl : beeswarmLayout points posFn r
      = ((points.map
            (fun p => (⟨p.value, p.payload, posFn p.value, 0⟩ : BOut T))).insertionSort
          (fun a b => a.y ≤ b.y)).foldl (placeStep r) [] := rfl
  rw [hbl, hsort]
  have h := equalY_fold r (posFn v) hr
    (points.map (fun p => (⟨p.value, p.payload, posFn p.value, 0⟩ : BOut T)))
    [] hy (by simp) (by simp)
  simpa using h

theorem scenarioB_offsets :
    ((beeswarmLayout [⟨5, 0⟩, ⟨5, 1⟩, ⟨5, 2⟩]
        (fun v => v) 4 : List (BOut ℕ)).map (fun p => p.x_offset))
      = [0, 8, -8] := by
  norm_num [beeswarmLayout, placeStep, chooseOffset, searchIdx, inWindow,
    farEnough, candidate, candInt, List.insertionSort, List.orderedInsert]

/-- C8 (counterexample): with three points of value 5, the identity position
function and pointRadius 4, the offset step is `δ = 2 × 4 = 8`, so the
produced x_offset sequence is `[0, 8, −8]` and in particular not
`[0, 4, −4]` (which would place circle centers only 4 apart, contradicting
the claim's own "no pair closer than 8" requirement). -/
theorem beeswarm_scenario_b_counterexample :
    ((beeswarmLayout [⟨5, 0⟩, ⟨5, 1⟩, ⟨5, 2⟩]
        (fun v => v) 4 : List (BOut ℕ)).map (fun p => p.x_offset))
      = [0, 8, -8]
    ∧ ((beeswarmLayout [⟨5, 0⟩, ⟨5, 1⟩, ⟨5, 2⟩]
        (fun v => v) 4 : List (BOut ℕ)).map (fun p => p.x_offset))
      ≠ [0, 4, -4] := by
  refine ⟨scenarioB_offsets, ?_⟩
  rw [scenarioB_offsets]
  intro hc
  have h1 := congrArg (fun l => l.get? 1) hc
  norm_num at h1

/-- C8 (amended): for three points with identical value 5, identity position
function and pointRadius 4, the x_offset sequence is `[0, 8, −8]` — the
first point at 0, the rest alternating outward by `δ = 2 × pointRadius = 8`
— with no pair of offsets closer than 8; and in general, for every input
whose points all share the same value (and any position function and
positive radius), the offsets are resolved sequentially outward from zero in
alternating sign order: the i-th placed point gets the i-th candidate
`0, +δ, −δ, +2δ, −2δ, …`. -/
theorem beeswarm_scenario_b_amended :
    (((beeswarmLayout [⟨5, 0⟩, ⟨5, 1⟩, ⟨5, 2⟩]
        (fun v => v) 4 : List (BOut ℕ)).map (fun p => p.x_offset))
        = [0, 8, -8]
      ∧ ((beeswarmLayout [⟨5, 0⟩, ⟨5, 1⟩, ⟨5, 2⟩]
          (fun v => v) 4 : List (BOut ℕ)).map (fun p => p.x_offset)).Pairwise
          (fun a b => 8 ≤ |a - b|))
    ∧ ∀ (T : Type) (points : List (BPoint T)) (posFn : ℚ → ℚ) (r v : ℚ),
        0 < r → (∀ p ∈ points, p.value = v) →
        (beeswarmLayout points posFn r).map (fun q => q.x_offset)
          = (List.range points.length).map (candidate (2 * r)) := by
  constructor
  · refine ⟨scenarioB_offsets, ?_⟩
    rw [scenarioB_offsets]
    refine List.Pairwise.cons ?_
      (List.Pairwise.cons ?_ (List.pairwise_singleton _ _))
    · intro b hb
      rcases List.mem_cons.mp hb with h | h
      · subst h
        rw [show |(0:ℚ) - 8| = 8 by rw [abs_of_nonpos] <;> norm_num]
      · rw [List.mem_singleton.mp h]
        rw [show |(0:ℚ) - -8| = 8 by rw [abs_of_nonneg] <;> norm_num]
    · intro b hb
      rw [List.mem_singleton.mp hb]
      rw [show |(8:ℚ) - -8| = 16 by rw [abs_of_nonneg] <;> norm_num]
      norm_num
  · intro T points posFn r v hr hv
    exact beeswarm_equal_values points posFn r v hr hv

/-- C8 (witness): the general equal-value clause applied to a concrete
two-point input with value 7 and radius 1, yielding candidates 0 and 2. -/
theorem beeswarm_scenario_b_amended_witness :
    ((beeswarmLayout [⟨7, 0⟩, ⟨7, 1⟩]
        (fun x => x) 1 : List (BOut ℕ)).map (fun q => q.x_offset))
      = (List.range 2).map (candidate (2 * 1)) :=
  beeswarm_scenario_b_amended.2 ℕ [⟨7, 0⟩, ⟨7, 1⟩] (fun x => x) 1 7
    (by norm_num) (by decide)

/-- C1 (witness): two points with equal value and radius 1 end up with
offsets 0 and 2, which the no-overlap theorem separates by at least 2. -/
theorem beeswarm_no_overlap_witness :
    2 * (1:ℚ) ≤ |(0:ℚ) - 2| := by
  have h := beeswarm_no_overlap (T := ℕ) [⟨0, 0⟩, ⟨0, 1⟩] (fun v => v) 1
  have hL : beeswarmLayout (T := ℕ) [⟨0, 0⟩, ⟨0, 1⟩] (fun v => v) 1
      = [⟨0, 0, 0, 0⟩, ⟨0, 1, 0, 2⟩] := by
    norm_num [beeswarmLayout, placeStep, chooseOffset, searchIdx, inWindow,
      farEnough, candidate, candInt, List.insertionSort, List.orderedInsert]
  rw [hL] at h
  have h2 := (List.pairwise_cons.mp h).1 _ (List.mem_singleton.mpr rfl)
  exact h2 (by norm_num)

/-- C4 (witness): a single input point is returned with its value, payload
and mapped position. -/
theorem beeswarm_preserves_points_witness :
    (⟨5, 0, 5, 0⟩ : BOut ℕ).y = (fun v => v) (⟨5, 0, 5, 0⟩ : BOut ℕ).value := by
  have h := (beeswarm_preserves_points (T := ℕ) [⟨5, 0⟩] (fun v => v) 1).2
  have hL : beeswarmLayout (T := ℕ) [⟨5, 0⟩] (fun v => v) 1
      = [⟨5, 0, 5, 0⟩] := by
    norm_num [beeswarmLayout, placeStep, chooseOffset, searchIdx, inWindow,
      farEnough, candidate, candInt, List.insertionSort, List.orderedInsert]
  exact h _ (by rw [hL]; exact List.mem_singleton.mpr rfl)

theorem profileDemo_eval :
    computeSurfaceProfile [⟨"m1", "t1", "P1", "P2", Round.F, "d"⟩]
      [⟨"t1", Surface.Hard, "A"⟩] "P1" = [⟨Surface.Hard, 1, 1, 1⟩] := by
  norm_num [computeSurfaceProfile, surfaceFold, surfaceStep, bumpSurface,
    ensureSurface, isPlayerMatch, tournamentGet, mapGet]

theorem profileDemo_mem :
    (⟨Surface.Hard, 1, 1, 1⟩ : SurfaceStat) ∈ computeSurfaceProfile
      [⟨"m1", "t1", "P1", "P2", Round.F, "d"⟩]
      [⟨"t1", Surface.Hard, "A"⟩] "P1" := by
  rw [profileDemo_eval]
  exact List.mem_singleton.mpr rfl

/-- C5 (witness): the bound theorem applied to the single entry produced by
a one-match input. -/
theorem surfaceStat_winRate_bounds_witness :
    (⟨Surface.Hard, 1, 1, 1⟩ : SurfaceStat).winRate
      = ((⟨Surface.Hard, 1, 1, 1⟩ : SurfaceStat).wins : ℚ)
        / ((⟨Surface.Hard, 1, 1, 1⟩ : SurfaceStat).total : ℚ) :=
  (surfaceStat_winRate_bounds [⟨"m1", "t1", "P1", "P2", Round.F, "d"⟩]
    [⟨"t1", Surface.Hard, "A"⟩] "P1"
    ⟨Surface.Hard, 1, 1, 1⟩ profileDemo_mem).2.2.1 (by norm_num)

/-- C6 (witness): the order theorem applied to the single entry produced by
a one-match input. -/
theorem computeSurfaceProfile_order_witness :
    1 ≤ (⟨Surface.Hard, 1, 1, 1⟩ : SurfaceStat).total :=
  (computeSurfaceProfile_order [⟨"m1", "t1", "P1", "P2", Round.F, "d"⟩]
    [⟨"t1", Surface.Hard, "A"⟩] "P1").2
    ⟨Surface.Hard, 1, 1, 1⟩ profileDemo_mem

/-- C10 (witness): the counts theorem applied to the single entry produced
by a one-match input. -/
theorem surfaceStat_counts_positive_witness :
    (⟨Surface.Hard, 1, 1, 1⟩ : SurfaceStat).wins
        ≤ (⟨Surface.Hard, 1, 1, 1⟩ : SurfaceStat).total
      ∧ 1 ≤ (⟨Surface.Hard, 1, 1, 1⟩ : SurfaceStat).total
      ∧ (⟨Surface.Hard, 1, 1, 1⟩ : SurfaceStat).winRate
        = ((⟨Surface.Hard, 1, 1, 1⟩ : SurfaceStat).wins : ℚ)
          / ((⟨Surface.Hard, 1, 1, 1⟩ : SurfaceStat).total : ℚ) :=
  surfaceStat_counts_positive [⟨"m1", "t1", "P1", "P2", Round.F, "d"⟩]
    [⟨"t1", Surface.Hard, "A"⟩] "P1"
    ⟨Surface.Hard, 1, 1, 1⟩ profileDemo_mem

end ATPDash
